import Mathlib

/-!
Verification of DeFreeze (`src/main.py`): a batch tool that detects
simultaneous audio-silence and video-freeze intervals in media files and
removes them by a cut-and-concatenate re-encode.

Times are modelled as rationals (`ℚ`); an interval is a `(start, end)` pair.
The external `ffmpeg` invocations are modelled by the data they would act on:
the parsed event stream for the detectors, and a symbolic action describing
the command that `cut_gaps_with_analysis` constructs.
-/

namespace DeFreeze

/-- A time interval: `(start, end)` in seconds.  Mirrors the `(start, end)`
tuples used throughout `main.py`. -/
abbrev Interval : Type := ℚ × ℚ

/-- `merge_intervals` from `main.py` lines 50-73: a two-pointer scan over two
gap lists.  At each step it computes the overlap of the current video and
audio intervals, keeps it when it is strictly positive and at least
`min_duration` long, and then advances the pointer whose interval ends first
(ties advance the audio pointer, matching `if v_end < a_end: i += 1 else:
j += 1`).  The loop stops when either list is exhausted. -/
def merge_intervals : List Interval → List Interval → ℚ → List Interval
  | [], _, _ => []
  | _ :: _, [], _ => []
  | v :: vs, a :: as, min_duration =>
    let overlap_start := max v.1 a.1
    let overlap_end := min v.2 a.2
    let rest :=
      if v.2 < a.2 then merge_intervals vs (a :: as) min_duration
      else merge_intervals (v :: vs) as min_duration
    if overlap_start < overlap_end ∧ min_duration ≤ overlap_end - overlap_start then
      (overlap_start, overlap_end) :: rest
    else rest
termination_by A B _ => A.length + B.length
decreasing_by
  · simp
  · simp

/-- Precondition assumed by `merge_intervals` (spec §4.2): a gap list is
sorted by start time and internally non-overlapping.  For well-formed
intervals (`start ≤ end`) this is equivalent to each interval ending no
later than the next one starts. -/
def SortedDisjoint (L : List Interval) : Prop :=
  (∀ x ∈ L, x.1 ≤ x.2) ∧ L.Chain' fun x y => x.2 ≤ y.1

instance (L : List Interval) : Decidable (SortedDisjoint L) :=
  inferInstanceAs
    (Decidable ((∀ x ∈ L, x.1 ≤ x.2) ∧ L.Chain' fun x y : Interval => x.2 ≤ y.1))

/-- All pairs of one interval from `A` and one from `B`, in lexicographic
order of positions.  Used to state what `merge_intervals` computes. -/
def allPairs (A B : List Interval) : List (Interval × Interval) :=
  A.flatMap fun a => B.map fun b => (a, b)

/-- Overlap of a pair of intervals, `[max(a.start,b.start),
min(a.end,b.end)]`, as computed at lines 60-61 of `main.py`. -/
def overlapOf (p : Interval × Interval) : Interval :=
  (max p.1.1 p.2.1, min p.1.2 p.2.2)

/-- Test at line 64 of `main.py`: the overlap is kept when it is strictly
positive and its duration is at least `min_duration`. -/
def qualifies (min_duration : ℚ) (p : Interval × Interval) : Bool :=
  (overlapOf p).1 < (overlapOf p).2 ∧
    min_duration ≤ (overlapOf p).2 - (overlapOf p).1

/-- Specification-side description of the merger: the qualifying overlaps of
all pairs, in order. -/
def mergeSpec (A B : List Interval) (min_duration : ℚ) : List Interval :=
  ((allPairs A B).filter (qualifies min_duration)).map overlapOf

/-- Loop body of the cut planner, `main.py` lines 100-106.  The state is the
list of keep segments emitted so far together with `last_end`.  A gap whose
start is within `0.001` of `last_end` (and `last_end > 0`) is skipped via
`continue`, leaving the state untouched; otherwise the keep segment
`(last_end, start)` is appended and `last_end` becomes the gap's end. -/
def planStep (st : List Interval × ℚ) (gap : Interval) : List Interval × ℚ :=
  if 0 < st.2 ∧ |st.2 - gap.1| ≤ 1/1000 then st
  else (st.1 ++ [(st.2, gap.1)], gap.2)

/-- Cut planner, `main.py` lines 95-109: folds `planStep` over the merged
gap list starting from no segments and `last_end = 0`.  Returns the bounded
keep segments (the `-ss last_end -to start` inputs) and the final
`last_end`, i.e. the start of the trailing open-ended segment
(`-ss last_end`). -/
def planSegments (gaps : List Interval) : List Interval × ℚ :=
  gaps.foldl planStep ([], 0)

/-- Symbolic description of the ffmpeg command `cut_gaps_with_analysis`
constructs (or the copy it performs instead): a straight re-encode of the
whole file with the given crf, a byte-for-byte copy, or a
trim-and-concatenate encode of the given keep segments plus the trailing
segment, with the given crf. -/
inductive FfmpegAction : Type where
  | encodeWhole (crf : ℕ)
  | copyFile
  | concatEncode (segments : List Interval) (trailingStart : ℚ) (crf : ℕ)
deriving DecidableEq

/-- Quality factor appearing in an action's encoder command, if it encodes. -/
def FfmpegAction.crfOf : FfmpegAction → Option ℕ
  | .encodeWhole c => some c
  | .copyFile => none
  | .concatEncode _ _ c => some c

/-- Whether an action constructs a concat filter graph. -/
def FfmpegAction.isConcat : FfmpegAction → Bool
  | .concatEncode _ _ _ => true
  | _ => false

/-- Model of `cut_gaps_with_analysis`, `main.py` lines 76-123, abstracting
the subprocess call to the `FfmpegAction` it performs.  Gaps are merged with
`min_duration = 1.5` (line 77).  With no gaps: force re-encodes the whole
file (crf 30, line 84) and otherwise the file is copied; both return `True`
(line 93).  With gaps: the planned segments are trim-concatenated and
re-encoded with crf 30 (line 116), returning `True` (line 123). -/
def cut_gaps_with_analysis (freezes silences : List Interval) (force : Bool) :
    FfmpegAction × Bool :=
  let gaps := merge_intervals freezes silences (3/2)
  match gaps with
  | [] => if force then (.encodeWhole 30, true) else (.copyFile, true)
  | _ :: _ =>
    let plan := planSegments gaps
    (.concatEncode plan.1 plan.2 30, true)

/-- One parsed event from ffmpeg's diagnostic stream: a matched
`freeze_start:`/`silence_start:` or `freeze_end:`/`silence_end:` timestamp,
as extracted by the `re.findall` calls at lines 17 and 37 of `main.py`. -/
inductive FfEvent : Type where
  | startMark (t : ℚ)
  | endMark (t : ℚ)
deriving DecidableEq

/-- Pairing loop shared by `detect_freezes` (lines 18-26) and
`detect_silences` (lines 38-47): scan the events keeping an optional pending
start; a start event overwrites the pending start, an end event with a
pending start emits `(start, end)` and clears it, and an end event with no
pending start is ignored. -/
def pairEvents : Option ℚ → List FfEvent → List Interval
  | _, [] => []
  | _, .startMark t :: rest => pairEvents (some t) rest
  | some s, .endMark t :: rest => (s, t) :: pairEvents none rest
  | none, .endMark _ :: rest => pairEvents none rest

/-- Model of `detect_freezes` (`main.py` lines 10-26) on the parsed event
stream: pair up start/end markers starting with no pending start. -/
def detect_freezes (events : List FfEvent) : List Interval :=
  pairEvents none events

/-- Model of `detect_silences` (`main.py` lines 29-47); the pairing loop is
identical to the freeze detector's. -/
def detect_silences (events : List FfEvent) : List Interval :=
  pairEvents none events

/-- Observable outcome of one `encode_wrapper` call: whether the input file
was unlinked, what error (if any) was printed by the `except` branch, and
what exception (if any) propagates out of the wrapper to `f.result()` in
`main`. -/
structure WrapperResult : Type where
  deletedInput : Bool
  loggedError : Option String
  raised : Option String
deriving DecidableEq

/-- Model of `encode_wrapper`, `main.py` lines 133-141.  Its job's encode
step is abstracted as the result of `cut_gaps_with_analysis`: either a
normal return value or a raised exception.  A normal `True` leads to
`os.unlink` of the input; any exception is caught by the `except Exception`
branch, logged, and not re-raised. -/
def encode_wrapper (encodeResult : Except String Bool) : WrapperResult :=
  match encodeResult with
  | .ok true => ⟨true, none, none⟩
  | .ok false => ⟨false, none, none⟩
  | .error e => ⟨false, some e, none⟩

/-- Result collection in `main`, lines 195-196: `f.result()` re-raises the
first exception that escaped a worker, if any. -/
def collectResults (results : List WrapperResult) : Option String :=
  results.findSome? fun r => r.raised

lemma SortedDisjoint.tail {x : Interval} {L : List Interval}
    (h : SortedDisjoint (x :: L)) : SortedDisjoint L :=
  ⟨fun y hy => h.1 y (List.mem_cons_of_mem _ hy), h.2.tail⟩

lemma SortedDisjoint.head_le : ∀ {L : List Interval} {x : Interval},
    SortedDisjoint (x :: L) → ∀ y ∈ L, x.2 ≤ y.1 := by
  intro L
  induction L with
  | nil => simp
  | cons y ys ih =>
    intro x h z hz
    rcases List.mem_cons.mp hz with rfl | hz'
    · exact (List.chain'_cons.mp h.2).1
    · have hxy : x.2 ≤ y.1 := (List.chain'_cons.mp h.2).1
      have hy : y.1 ≤ y.2 := h.1 y (by simp)
      exact le_trans (le_trans hxy hy) (ih h.tail z hz')

lemma sd_unique_container : ∀ {A : List Interval}, SortedDisjoint A →
    ∀ {x : Interval}, x.1 < x.2 →
    ∀ a ∈ A, ∀ a' ∈ A, a.1 ≤ x.1 → x.2 ≤ a.2 → a'.1 ≤ x.1 → x.2 ≤ a'.2 →
    a = a' := by
  intro A
  induction A with
  | nil => simp
  | cons h T ih =>
    intro hA x hx a ha a' ha' h1 h2 h3 h4
    rcases List.mem_cons.mp ha with rfl | haT
    · rcases List.mem_cons.mp ha' with rfl | ha'T
      · rfl
      · have hle := hA.head_le a' ha'T
        linarith
    · rcases List.mem_cons.mp ha' with rfl | ha'T
      · have hle := hA.head_le a haT
        linarith
      · exact ih hA.tail hx a haT a' ha'T h1 h2 h3 h4

lemma allPairs_nil_right (A : List Interval) : allPairs A [] = [] := by
  simp [allPairs]

lemma allPairs_cons_left (v : Interval) (vs B : List Interval) :
    allPairs (v :: vs) B = (B.map fun b => (v, b)) ++ allPairs vs B := by
  simp [allPairs]

lemma mem_allPairs {p : Interval × Interval} {A B : List Interval} :
    p ∈ allPairs A B ↔ p.1 ∈ A ∧ p.2 ∈ B := by
  obtain ⟨pa, pb⟩ := p
  simp [allPairs]

lemma qualifies_iff {d : ℚ} {p : Interval × Interval} :
    qualifies d p = true ↔
      (overlapOf p).1 < (overlapOf p).2 ∧
        d ≤ (overlapOf p).2 - (overlapOf p).1 := by
  simp [qualifies]

lemma mergeSpec_nil_left (B : List Interval) (d : ℚ) :
    mergeSpec [] B d = [] := by
  simp [mergeSpec, allPairs]

lemma mergeSpec_nil_right (A : List Interval) (d : ℚ) :
    mergeSpec A [] d = [] := by
  simp [mergeSpec, allPairs_nil_right]

lemma mergeSpec_cons_left (v : Interval) (vs B : List Interval) (d : ℚ) :
    mergeSpec (v :: vs) B d =
      ((B.map fun b => (v, b)).filter (qualifies d)).map overlapOf ++
        mergeSpec vs B d := by
  simp [mergeSpec, allPairs_cons_left]

lemma filter_pairs_after_nil {v a : Interval} {as : List Interval} {d : ℚ}
    (hadv : v.2 < a.2) (hB : SortedDisjoint (a :: as)) :
    (as.map fun b => (v, b)).filter (qualifies d) = [] := by
  apply List.filter_eq_nil_iff.mpr
  intro p hp
  obtain ⟨b, hb, rfl⟩ := List.mem_map.mp hp
  have hab : a.2 ≤ b.1 := hB.head_le b hb
  simp only [qualifies_iff, overlapOf, not_and]
  intro hlt
  have h1 : b.1 ≤ max v.1 b.1 := le_max_right _ _
  have h2 : min v.2 b.2 ≤ v.2 := min_le_left _ _
  linarith

lemma mergeSpec_drop_head_right {a : Interval} {vs as : List Interval} {d : ℚ}
    (h : ∀ x ∈ vs, ¬ qualifies d (x, a) = true) :
    mergeSpec vs (a :: as) d = mergeSpec vs as d := by
  induction vs with
  | nil => simp [mergeSpec, allPairs]
  | cons x vs' ih =>
    have hx : ¬ qualifies d (x, a) = true := h x (by simp)
    rw [mergeSpec_cons_left, mergeSpec_cons_left,
      ih fun y hy => h y (List.mem_cons_of_mem _ hy)]
    simp [List.filter_cons, hx]

lemma merge_cons_cons (v a : Interval) (vs as : List Interval) (d : ℚ) :
    merge_intervals (v :: vs) (a :: as) d =
      if max v.1 a.1 < min v.2 a.2 ∧ d ≤ min v.2 a.2 - max v.1 a.1 then
        (max v.1 a.1, min v.2 a.2) ::
          (if v.2 < a.2 then merge_intervals vs (a :: as) d
            else merge_intervals (v :: vs) as d)
      else
        (if v.2 < a.2 then merge_intervals vs (a :: as) d
          else merge_intervals (v :: vs) as d) := by
  rw [merge_intervals]

lemma merge_eq_aux (d : ℚ) : ∀ (n : ℕ) (A B : List Interval),
    A.length + B.length ≤ n → SortedDisjoint A → SortedDisjoint B →
    merge_intervals A B d = mergeSpec A B d := by
  intro n
  induction n with
  | zero =>
    intro A B hlen _ _
    have : A = [] := by
      cases A with
      | nil => rfl
      | cons x xs => simp at hlen
    subst this
    rw [merge_intervals, mergeSpec_nil_left]
  | succ n ih =>
    intro A B hlen hA hB
    cases A with
    | nil => rw [merge_intervals, mergeSpec_nil_left]
    | cons v vs =>
      cases B with
      | nil => rw [merge_intervals, mergeSpec_nil_right]
      | cons a as =>
        rw [merge_cons_cons]
        by_cases hadv : v.2 < a.2
        · have hdrop : (as.map fun b => (v, b)).filter (qualifies d) = [] :=
            filter_pairs_after_nil hadv hB
          have hrec : merge_intervals vs (a :: as) d = mergeSpec vs (a :: as) d := by
            apply ih vs (a :: as) _ hA.tail hB
            simp at hlen ⊢
            omega
          rw [if_pos hadv, mergeSpec_cons_left]
          simp only [List.map_cons, List.filter_cons, hdrop]
          by_cases hq : qualifies d (v, a) = true
          · rw [if_pos hq, hrec]
            have := qualifies_iff.mp hq
            simp only [overlapOf] at this
            rw [if_pos this]
            simp [overlapOf]
          · rw [if_neg hq, hrec]
            have : ¬ (max v.1 a.1 < min v.2 a.2 ∧ d ≤ min v.2 a.2 - max v.1 a.1) := by
              intro hc
              exact hq (qualifies_iff.mpr (by simpa [overlapOf] using hc))
            rw [if_neg this]
            simp
        · have hva : a.2 ≤ v.2 := le_of_not_lt hadv
          have hxa : ∀ x ∈ vs, ¬ qualifies d (x, a) = true := by
            intro x hx hq
            have hvx : v.2 ≤ x.1 := hA.head_le x hx
            have := qualifies_iff.mp hq
            simp only [overlapOf] at this
            have h1 : x.1 ≤ max x.1 a.1 := le_max_left _ _
            have h2 : min x.2 a.2 ≤ a.2 := min_le_right _ _
            linarith [this.1]
          have hrec : merge_intervals (v :: vs) as d = mergeSpec (v :: vs) as d := by
            apply ih (v :: vs) as _ hA hB.tail
            simp at hlen ⊢
            omega
          have hdrop2 : mergeSpec vs (a :: as) d = mergeSpec vs as d :=
            mergeSpec_drop_head_right hxa
          rw [if_neg hadv, hrec, mergeSpec_cons_left (B := a :: as),
            mergeSpec_cons_left (B := as), hdrop2]
          simp only [List.map_cons, List.filter_cons]
          by_cases hq : qualifies d (v, a) = true
          · rw [if_pos hq]
            have := qualifies_iff.mp hq
            simp only [overlapOf] at this
            rw [if_pos this]
            simp [overlapOf]
          · rw [if_neg hq]
            have : ¬ (max v.1 a.1 < min v.2 a.2 ∧ d ≤ min v.2 a.2 - max v.1 a.1) := by
              intro hc
              exact hq (qualifies_iff.mpr (by simpa [overlapOf] using hc))
            rw [if_neg this]

lemma merge_intervals_eq_mergeSpec (A B : List Interval) (d : ℚ)
    (hA : SortedDisjoint A) (hB : SortedDisjoint B) :
    merge_intervals A B d = mergeSpec A B d :=
  merge_eq_aux d (A.length + B.length) A B le_rfl hA hB

lemma foldl_planStep_no_skip :
    ∀ (gs : List Interval) (segs : List Interval) (l : ℚ),
      (gs.Chain' fun g h => 0 < g.2 → 1/1000 < |g.2 - h.1|) →
      (∀ g₀ ∈ gs.head?, ¬(0 < l ∧ |l - g₀.1| ≤ 1/1000)) →
      gs.foldl planStep (segs, l) =
        (segs ++ (l :: gs.map Prod.snd).zip (gs.map Prod.fst),
          (gs.map Prod.snd).getLastD l) := by
  intro gs
  induction gs with
  | nil => intro segs l _ _; simp
  | cons g gs' ih =>
    intro segs l hsep hfirst
    have hcond : ¬(0 < l ∧ |l - g.1| ≤ 1/1000) := hfirst g (by simp)
    have hstep : planStep (segs, l) g = (segs ++ [(l, g.1)], g.2) := by
      simp only [planStep, if_neg hcond]
    rw [List.foldl_cons, hstep,
      ih (segs ++ [(l, g.1)]) g.2 hsep.tail ?_]
    · rw [List.map_cons, List.map_cons, List.zip_cons_cons, List.getLastD_cons]
      simp [List.append_assoc]
    · intro h₀ hh₀
      cases gs' with
      | nil => simp at hh₀
      | cons h hs =>
        simp only [List.head?_cons, Option.mem_some_iff] at hh₀
        subst hh₀
        have := (List.chain'_cons.mp hsep).1
        intro hc
        exact absurd (this hc.1) (not_lt.mpr hc.2)

lemma getLastD_map_snd :
    ∀ (gs : List Interval) (hne : gs ≠ []) (l : ℚ),
      (gs.map Prod.snd).getLastD l = (gs.getLast hne).2 := by
  intro gs
  induction gs with
  | nil => intro hne; exact absurd rfl hne
  | cons g gs' ih =>
    intro _ l
    cases gs' with
    | nil => simp
    | cons h hs =>
      rw [List.map_cons, List.getLastD_cons, ih (by simp) g.2]
      simp [List.getLast_cons]

lemma pairEvents_append_start :
    ∀ (events : List FfEvent) (st : Option ℚ) (t : ℚ),
      pairEvents st (events ++ [.startMark t]) = pairEvents st events := by
  intro events
  induction events with
  | nil =>
    intro st t
    cases st <;> simp [pairEvents]
  | cons e rest ih =>
    intro st t
    cases e with
    | startMark u => simp only [List.cons_append, pairEvents, ih]
    | endMark u =>
      cases st with
      | none =>
        simp only [List.cons_append, pairEvents, List.append_eq]
        exact ih none t
      | some s =>
        simp only [List.cons_append, pairEvents, List.append_eq]
        rw [ih]

lemma encode_wrapper_raised_none (r : Except String Bool) :
    (encode_wrapper r).raised = none := by
  cases r with
  | ok b => cases b <;> rfl
  | error e => rfl

lemma collectResults_map_encode_wrapper (jobs : List (Except String Bool)) :
    collectResults (jobs.map encode_wrapper) = none := by
  induction jobs with
  | nil => rfl
  | cons j js ih =>
    simp only [List.map_cons, collectResults, List.findSome?_cons,
      encode_wrapper_raised_none]
    simpa [collectResults] using ih

/-- C1: for sorted, internally non-overlapping interval lists `A` and `B`
and any threshold `t`, `merge_intervals A B t` is exactly the ordered
sequence of qualifying overlaps `[max(a.start,b.start), min(a.end,b.end)]`
over all pairs `a ∈ A`, `b ∈ B` with `end > start` and length at least `t`
(completeness and ordering via the equality with `mergeSpec`), and every
returned interval is the overlap of exactly one such pair (soundness and
uniqueness via the `∃!`). -/
theorem merge_intervals_complete_sound (A B : List Interval) (t : ℚ)
    (hA : SortedDisjoint A) (hB : SortedDisjoint B) :
    merge_intervals A B t = mergeSpec A B t ∧
      ∀ x ∈ merge_intervals A B t,
        ∃! p : Interval × Interval,
          p ∈ allPairs A B ∧ qualifies t p = true ∧ overlapOf p = x := by
  have heq := merge_intervals_eq_mergeSpec A B t hA hB
  refine ⟨heq, ?_⟩
  intro x hx
  rw [heq] at hx
  simp only [mergeSpec, List.mem_map, List.mem_filter] at hx
  obtain ⟨p, ⟨hpm, hpq⟩, hpov⟩ := hx
  refine ⟨p, ⟨hpm, hpq, hpov⟩, ?_⟩
  rintro ⟨qa, qb⟩ ⟨hqm, hqq, hqov⟩
  obtain ⟨pa, pb⟩ := p
  have hpmem := mem_allPairs.mp hpm
  have hqmem := mem_allPairs.mp hqm
  have hxpos : x.1 < x.2 := by
    have h := qualifies_iff.mp hpq
    rw [hpov] at h
    exact h.1
  have hpo1 : max pa.1 pb.1 = x.1 := congrArg Prod.fst hpov
  have hpo2 : min pa.2 pb.2 = x.2 := congrArg Prod.snd hpov
  have hqo1 : max qa.1 qb.1 = x.1 := congrArg Prod.fst hqov
  have hqo2 : min qa.2 qb.2 = x.2 := congrArg Prod.snd hqov
  have ha : qa = pa := by
    apply sd_unique_container hA hxpos qa hqmem.1 pa hpmem.1
    · rw [← hqo1]; exact le_max_left _ _
    · rw [← hqo2]; exact min_le_left _ _
    · rw [← hpo1]; exact le_max_left _ _
    · rw [← hpo2]; exact min_le_left _ _
  have hb : qb = pb := by
    apply sd_unique_container hB hxpos qb hqmem.2 pb hpmem.2
    · rw [← hqo1]; exact le_max_right _ _
    · rw [← hqo2]; exact min_le_right _ _
    · rw [← hpo1]; exact le_max_right _ _
    · rw [← hpo2]; exact min_le_right _ _
  rw [ha, hb]

/-- Witness for C1 at Scenario 1 of the spec: video gaps `[(10,20),(40,50)]`,
audio gaps `[(12,19),(41,49)]`, threshold `1.5`, where the merge evaluates
to `[(12,19),(41,49)]`. -/
theorem merge_intervals_complete_sound_witness :
    SortedDisjoint [((10:ℚ), (20:ℚ)), (40, 50)] ∧
      SortedDisjoint [((12:ℚ), (19:ℚ)), (41, 49)] ∧
      merge_intervals [((10:ℚ), (20:ℚ)), (40, 50)] [(12, 19), (41, 49)] (3/2)
        = [(12, 19), (41, 49)] ∧
      (merge_intervals [((10:ℚ), (20:ℚ)), (40, 50)] [(12, 19), (41, 49)] (3/2) =
          mergeSpec [((10:ℚ), (20:ℚ)), (40, 50)] [(12, 19), (41, 49)] (3/2) ∧
        ∀ x ∈ merge_intervals [((10:ℚ), (20:ℚ)), (40, 50)] [(12, 19), (41, 49)] (3/2),
          ∃! p : Interval × Interval,
            p ∈ allPairs [((10:ℚ), (20:ℚ)), (40, 50)] [(12, 19), (41, 49)] ∧
              qualifies (3/2) p = true ∧ overlapOf p = x) :=
  ⟨by norm_num [SortedDisjoint, List.chain'_cons],
   by norm_num [SortedDisjoint, List.chain'_cons],
   by simp [merge_intervals]; norm_num,
   merge_intervals_complete_sound _ _ _
     (by norm_num [SortedDisjoint, List.chain'_cons])
     (by norm_num [SortedDisjoint, List.chain'_cons])⟩

/-- C10: swapping the two input lists does not change the set of qualifying
overlaps produced by `merge_intervals`: for sorted, non-overlapping inputs,
membership in the two outputs coincides. -/
theorem merge_intervals_swap_set (A B : List Interval) (t : ℚ)
    (hA : SortedDisjoint A) (hB : SortedDisjoint B) :
    ∀ x, x ∈ merge_intervals A B t ↔ x ∈ merge_intervals B A t := by
  intro x
  rw [merge_intervals_eq_mergeSpec A B t hA hB,
    merge_intervals_eq_mergeSpec B A t hB hA]
  simp only [mergeSpec, List.mem_map, List.mem_filter]
  constructor
  · rintro ⟨⟨pa, pb⟩, ⟨hm, hq⟩, hov⟩
    refine ⟨(pb, pa), ⟨?_, ?_⟩, ?_⟩
    · rw [mem_allPairs] at hm ⊢
      exact ⟨hm.2, hm.1⟩
    · rw [qualifies_iff] at hq ⊢
      simpa [overlapOf, max_comm, min_comm] using hq
    · rw [← hov]
      simp [overlapOf, max_comm, min_comm]
  · rintro ⟨⟨pa, pb⟩, ⟨hm, hq⟩, hov⟩
    refine ⟨(pb, pa), ⟨?_, ?_⟩, ?_⟩
    · rw [mem_allPairs] at hm ⊢
      exact ⟨hm.2, hm.1⟩
    · rw [qualifies_iff] at hq ⊢
      simpa [overlapOf, max_comm, min_comm] using hq
    · rw [← hov]
      simp [overlapOf, max_comm, min_comm]

/-- Witness for C10 at the Scenario 1 lists. -/
theorem merge_intervals_swap_set_witness :
    SortedDisjoint [((10:ℚ), (20:ℚ)), (40, 50)] ∧
      SortedDisjoint [((12:ℚ), (19:ℚ)), (41, 49)] ∧
      ∀ x, x ∈ merge_intervals [((10:ℚ), (20:ℚ)), (40, 50)] [(12, 19), (41, 49)] (3/2) ↔
        x ∈ merge_intervals [((12:ℚ), (19:ℚ)), (41, 49)] [(10, 20), (40, 50)] (3/2) :=
  ⟨by norm_num [SortedDisjoint, List.chain'_cons],
   by norm_num [SortedDisjoint, List.chain'_cons],
   merge_intervals_swap_set _ _ _
     (by norm_num [SortedDisjoint, List.chain'_cons])
     (by norm_num [SortedDisjoint, List.chain'_cons])⟩

/-- C2 counterexample: an exception raised inside the encode step does NOT
propagate out of `encode_wrapper` — the `except Exception` branch at
`main.py` lines 140-141 catches and logs it, so nothing reaches the
`f.result()` collection loop.  This refutes the claim that the batch driver
re-raises the first job failure. -/
theorem exception_propagation_cex :
    (encode_wrapper (Except.error "boom")).raised = none ∧
      ¬ (encode_wrapper (Except.error "boom")).raised = some "boom" :=
  ⟨rfl, by simp [encode_wrapper]⟩

/-- C2 amended: a job exception is caught inside `encode_wrapper` and
logged; it never propagates to the result-collection loop, so `f.result()`
in `main` observes no exception from any job body. -/
theorem exceptions_caught_not_propagated (e : String)
    (jobs : List (Except String Bool)) :
    (encode_wrapper (Except.error e)).raised = none ∧
      (encode_wrapper (Except.error e)).loggedError = some e ∧
      collectResults (jobs.map encode_wrapper) = none :=
  ⟨rfl, rfl, collectResults_map_encode_wrapper jobs⟩

/-- C3: if `cut_gaps_with_analysis` completes successfully the input file is
unlinked; on any exception the input is preserved, the error is logged, and
nothing propagates out of the worker, so the batch continues. -/
theorem encode_wrapper_delete_policy (e : String) :
    (encode_wrapper (Except.ok true)).deletedInput = true ∧
      (encode_wrapper (Except.ok true)).raised = none ∧
      (encode_wrapper (Except.error e)).deletedInput = false ∧
      (encode_wrapper (Except.error e)).loggedError = some e ∧
      (encode_wrapper (Except.error e)).raised = none :=
  ⟨rfl, rfl, rfl, rfl, rfl⟩

/-- C4: for a non-empty merged gap list in which no successive gap triggers
the epsilon rule, the planner emits the keep segments
`(previous_end_or_zero, gap.start)` for each gap plus the trailing segment
from the last gap's end; and in the Scenario 3 instance — gap 1 ending at
`20.0` and the next gap starting at `20.0005` — the degenerate boundary
segment is skipped (no segment is emitted for that boundary). -/
theorem cut_planner_keep_segments (gs : List Interval) (hne : gs ≠ [])
    (hsep : gs.Chain' fun g h => 0 < g.2 → 1/1000 < |g.2 - h.1|) :
    planSegments gs =
        ((0 :: gs.map Prod.snd).zip (gs.map Prod.fst), (gs.getLast hne).2) ∧
      planSegments [(10, 20), (40001/2000, 30)] = ([(0, 10)], 20) := by
  constructor
  · rw [planSegments, foldl_planStep_no_skip gs [] 0 hsep ?_]
    · rw [List.nil_append, getLastD_map_snd gs hne 0]
    · intro g₀ _ hc
      exact absurd hc.1 (lt_irrefl 0)
  · norm_num [planSegments, planStep, abs_le]

/-- Witness for C4 at gaps `[(10,20),(40,50)]`, where the planner emits
`[(0,10),(20,40)]` with trailing start `50`. -/
theorem cut_planner_keep_segments_witness :
    ([((10:ℚ), (20:ℚ)), (40, 50)] ≠ ([] : List Interval)) ∧
      List.Chain' (fun g h => 0 < g.2 → 1/1000 < |g.2 - h.1|)
        [((10:ℚ), (20:ℚ)), (40, 50)] ∧
      (planSegments [((10:ℚ), (20:ℚ)), (40, 50)] =
          ((0 :: [((10:ℚ), (20:ℚ)), (40, 50)].map Prod.snd).zip
              ([((10:ℚ), (20:ℚ)), (40, 50)].map Prod.fst),
            ([((10:ℚ), (20:ℚ)), (40, 50)].getLast (by simp)).2) ∧
        planSegments [(10, 20), (40001/2000, 30)] = ([(0, 10)], 20)) ∧
      planSegments [((10:ℚ), (20:ℚ)), (40, 50)] = ([(0, 10), (20, 40)], 50) :=
  ⟨by simp, by norm_num [lt_abs],
   cut_planner_keep_segments _ (by simp) (by norm_num [lt_abs]),
   by norm_num [planSegments, planStep, abs_le]⟩

/-- C5: when a gap triggers the epsilon skip, the `continue` at `main.py`
line 102 leaves `last_end` (and the emitted segments) untouched, so the gap
is dropped from the plan entirely: subsequent processing behaves exactly as
if the skipped gap were absent, and the skipped gap's time span is retained
in the output. -/
theorem plan_skip_keeps_cursor (segs : List Interval) (l s e : ℚ)
    (rest : List Interval) (h1 : 0 < l) (h2 : |l - s| ≤ 1/1000) :
    planStep (segs, l) (s, e) = (segs, l) ∧
      List.foldl planStep (segs, l) ((s, e) :: rest) =
        List.foldl planStep (segs, l) rest := by
  have hstep : planStep (segs, l) (s, e) = (segs, l) := by
    simp only [planStep]
    rw [if_pos ⟨h1, h2⟩]
  exact ⟨hstep, by rw [List.foldl_cons, hstep]⟩

/-- Witness for C5: the planner state after gap `(10,20)` is
`([(0,10)], 20)`, and the gap starting at `20.0005` is skipped without
moving the cursor. -/
theorem plan_skip_keeps_cursor_witness :
    (0:ℚ) < 20 ∧ |(20:ℚ) - 40001/2000| ≤ 1/1000 ∧
      (planStep ([((0:ℚ), (10:ℚ))], 20) (40001/2000, 30)
          = ([((0:ℚ), (10:ℚ))], 20) ∧
        List.foldl planStep ([((0:ℚ), (10:ℚ))], 20) [(40001/2000, 30)] =
          List.foldl planStep ([((0:ℚ), (10:ℚ))], 20) []) :=
  ⟨by norm_num, by norm_num [abs_le],
   plan_skip_keeps_cursor _ _ _ _ _ (by norm_num) (by norm_num [abs_le])⟩

/-- C6: with an empty merged gap list, `cut_gaps_with_analysis` re-encodes
the whole file when force is set and copies it otherwise, returns `True` in
both cases, and constructs no concat filter graph. -/
theorem no_gaps_policy (freezes silences : List Interval) (force : Bool)
    (h : merge_intervals freezes silences (3/2) = []) :
    (cut_gaps_with_analysis freezes silences force).2 = true ∧
      (cut_gaps_with_analysis freezes silences force).1 =
        (if force then FfmpegAction.encodeWhole 30 else FfmpegAction.copyFile) ∧
      (cut_gaps_with_analysis freezes silences force).1.isConcat = false := by
  simp only [cut_gaps_with_analysis, h]
  cases force <;> simp [FfmpegAction.isConcat]

/-- Witness for C6 at Scenario 2: video gaps `[(0,5)]`, audio gaps
`[(10,15)]` have no overlap, and with `force = false` the planner copies the
input to the output. -/
theorem no_gaps_policy_witness :
    merge_intervals [((0:ℚ), (5:ℚ))] [(10, 15)] (3/2) = [] ∧
      ((cut_gaps_with_analysis [((0:ℚ), (5:ℚ))] [(10, 15)] false).2 = true ∧
        (cut_gaps_with_analysis [((0:ℚ), (5:ℚ))] [(10, 15)] false).1 =
          (if false then FfmpegAction.encodeWhole 30 else FfmpegAction.copyFile) ∧
        (cut_gaps_with_analysis [((0:ℚ), (5:ℚ))] [(10, 15)] false).1.isConcat
          = false) :=
  ⟨by simp [merge_intervals]; norm_num,
   no_gaps_policy _ _ _ (by simp [merge_intervals]; norm_num)⟩

/-- C7 counterexample: for the single gap `(0, 100)` spanning the whole
file, the planner does NOT yield an empty keep-segment list: since
`last_end = 0` the dedup guard `last_end > 0` fails and the degenerate
segment `(0, 0)` is emitted, followed by the trailing segment from `100`. -/
theorem whole_file_gap_cex :
    (planSegments [(0, 100)]).1 = [(0, 0)] ∧
      ¬ (planSegments [(0, 100)]).1 = [] := by
  have h : planSegments [((0:ℚ), (100:ℚ))] = ([(0, 0)], 100) := by
    norm_num [planSegments, planStep]
  rw [h]
  simp

/-- C7 amended: for a single gap spanning the file from time `0`, the
planner emits the degenerate keep segment `(0, 0)` plus a trailing segment
starting at the gap's end; there is no empty-list special case or graceful
failure. -/
theorem whole_file_gap_degenerate (fileEnd : ℚ) :
    planSegments [(0, fileEnd)] = ([(0, 0)], fileEnd) := by
  norm_num [planSegments, planStep]

/-- C8 counterexample: the merge-cut path also uses quality factor 30
(`main.py` line 116), the same constant as the force-encode path (line 84),
refuting the claim that the merge-cut path uses 28 and that the two paths
differ. -/
theorem crf_paths_cex :
    (cut_gaps_with_analysis [((10:ℚ), (20:ℚ))] [(12, 19)] false).1.crfOf
        = some 30 ∧
      ¬ (cut_gaps_with_analysis [((10:ℚ), (20:ℚ))] [(12, 19)] false).1.crfOf
        = some 28 ∧
      (cut_gaps_with_analysis ([] : List Interval) [] true).1.crfOf
        = some 30 := by
  have hm : merge_intervals [((10:ℚ), (20:ℚ))] [(12, 19)] (3/2) = [(12, 19)] := by
    simp [merge_intervals]; norm_num
  refine ⟨?_, ?_, ?_⟩ <;>
    simp [cut_gaps_with_analysis, hm, merge_intervals, FfmpegAction.crfOf]

/-- C8 amended: both encode paths use the same quality factor — whenever
`cut_gaps_with_analysis` encodes, the crf in the command is 30. -/
theorem crf_always_thirty (freezes silences : List Interval) (force : Bool)
    (c : ℕ)
    (h : (cut_gaps_with_analysis freezes silences force).1.crfOf = some c) :
    c = 30 := by
  unfold cut_gaps_with_analysis at h
  revert h
  cases hm : merge_intervals freezes silences (3/2) with
  | nil =>
    cases force with
    | false =>
      intro h
      simp [FfmpegAction.crfOf] at h
    | true =>
      intro h
      simp [FfmpegAction.crfOf] at h
      omega
  | cons g gs =>
    intro h
    simp [FfmpegAction.crfOf] at h
    omega

/-- Witness for C8 amended, at the force-encode path with no gaps. -/
theorem crf_always_thirty_witness :
    (cut_gaps_with_analysis ([] : List Interval) [] true).1.crfOf = some 30 ∧
      (30:ℕ) = 30 :=
  ⟨by simp [cut_gaps_with_analysis, merge_intervals, FfmpegAction.crfOf],
   crf_always_thirty [] [] true 30
     (by simp [cut_gaps_with_analysis, merge_intervals, FfmpegAction.crfOf])⟩

/-- C9: the detectors' pairing loop never fails: an empty event stream
yields an empty list, a trailing `start` marker with no following `end` is
silently dropped, and an `end` marker with no pending `start` contributes no
interval, for freeze and silence detection alike. -/
theorem detectors_tolerate_malformed (events : List FfEvent) (t u : ℚ) :
    detect_freezes [] = [] ∧ detect_silences [] = [] ∧
      detect_freezes (events ++ [FfEvent.startMark t]) = detect_freezes events ∧
      detect_silences (events ++ [FfEvent.startMark t]) = detect_silences events ∧
      detect_freezes (FfEvent.endMark u :: events) = detect_freezes events ∧
      detect_silences (FfEvent.endMark u :: events) = detect_silences events := by
  refine ⟨rfl, rfl, ?_, ?_, rfl, rfl⟩ <;>
    exact pairEvents_append_start events none t

end DeFreeze
